import Mathlib

/-!
Formal model of the SMC-NUTS sampler: the particle-weight handling of
`smcnuts/samples.py`, the accept-reject NUTS proposal wrapper of
`smcnuts/proposal/nuts_acc_rej_temp.py`, and the orchestration of
`smcnuts/smc_sampler.py`.

Log-weights are modelled as `Option ℝ`: `none` stands for the float value
`-inf`, `some v` for a finite value.  Numpy arrays are modelled as `List`s
or `Fin`-indexed functions over `ℝ`; the shared numpy random generator is
modelled as an abstract state number together with an oracle for
`rng.choice`.
-/

/-- A sample log-weight: `none` models the float `-inf`, `some v` a finite value. -/
abbrev LogWeight := Option ℝ

namespace Samples

/-- The finite log-weights, in order: the mask `index = ~np.isneginf(self.logw)`
of `samples.py` applied to `logw` (`self.logw[index]`). -/
def finiteEntries (logw : List LogWeight) : List ℝ := logw.filterMap id

/-- Sum of exponentials of a vector of finite log-weights. -/
noncomputable def sumExp (l : List ℝ) : ℝ := (l.map Real.exp).sum

/-- `scipy.special.logsumexp` on a vector of finite entries, in exact real
arithmetic: the log of the sum of exponentials. -/
noncomputable def logsumexp (l : List ℝ) : ℝ := Real.log (sumExp l)

/-- One entry of the normalised-weight array built by
`Samples.normalise_weights`: a position whose log-weight is `-inf` keeps the
`0` written by `np.zeros_like`; a finite position receives
`np.exp(self.logw[index] - log_likelihood)`. -/
noncomputable def wnEntry (c : ℝ) : LogWeight → ℝ
  | none => 0
  | some v => Real.exp (v - c)

/-- `Samples.normalise_weights` of `samples.py`: returns the pair
`(wn, log_likelihood)` that the method stores into `self.wn` and
`self.log_likelihood`. -/
noncomputable def normalise_weights (logw : List LogWeight) : List ℝ × ℝ :=
  (logw.map (wnEntry (logsumexp (finiteEntries logw))),
   logsumexp (finiteEntries logw))

/-- `Samples.calculate_ess` of `samples.py`:
`1 / np.sum(np.square(self.wn))`. -/
noncomputable def calculate_ess (wn : List ℝ) : ℝ :=
  1 / (wn.map (fun w => w ^ 2)).sum

/-- Adding the same constant `c` to every pre-normalisation log-weight; a
`-inf` entry stays `-inf` (float arithmetic: `-inf + c = -inf`). -/
def shiftLogw (c : ℝ) (logw : List LogWeight) : List LogWeight :=
  logw.map (Option.map (fun v => v + c))

/-- The state of a `Samples` object as far as `resample` in `samples.py` is
concerned: the method reads `self.N` and `self.rng` and assigns no field. -/
structure SamplesState (X : Type) where
  N : ℕ
  x : List X
  logw : List LogWeight
  wn : List ℝ
  log_likelihood : ℝ
  rngState : ℕ

/-- `Samples.resample` of `samples.py`.  `choice` is the oracle for
`self.rng.choice(i, self.N, p=wn)`: given the current generator state, the
probability vector and the number of draws, it returns the drawn indices
together with the advanced generator state.  `d` is the default value used to
totalise list indexing (numpy indexing is always in range for draws from
`np.linspace(0, N-1, N)`).  The method returns `(x_new, logw_new)` where
`x_new = x[i_new]` and `logw_new = np.ones(N) * log_likelihood - np.log(N)`;
the object state is unchanged apart from the consumed generator. -/
noncomputable def resample {X : Type} (choice : ℕ → List ℝ → ℕ → List ℕ × ℕ)
    (d : X) (s : SamplesState X) (x : List X) (wn : List ℝ)
    (log_likelihood : ℝ) : SamplesState X × List X × List ℝ :=
  let drawn := choice s.rngState wn s.N
  let x_new := drawn.1.map (fun j => x.getD j d)
  let logw_new := List.replicate s.N (log_likelihood - Real.log s.N)
  ({s with rngState := drawn.2}, x_new, logw_new)

end Samples

/-- Python runtime error kinds relevant to the constructor path of
`samples.py` and `smc_sampler.py`. -/
inductive PyError
  | typeError
  | attributeError
  | nameError
deriving DecidableEq

namespace PyModel

/-- Binding a Python call: a plain function with `params` positional
parameters (`self` excluded) called with `given` positional arguments
(`self` excluded) binds exactly when the counts agree; otherwise the
interpreter raises `TypeError` before the callee's body runs. -/
def bindArgs (params given : ℕ) : Except PyError Unit :=
  if given = params then Except.ok () else Except.error PyError.typeError

/-- `Samples.__init__(self, N, D, sample_proposal, target)` has four
parameters besides `self` (samples.py line 5). -/
def Samples_init_params : ℕ := 4

/-- `Samples.initialise_samples(self, sample_proposal)` has one parameter
besides `self` (samples.py line 39). -/
def initialise_samples_params : ℕ := 1

/-- `Samples.__init__` ends with the call
`self.initialise_samples(sample_proposal, target)`, which supplies two
arguments besides `self` (samples.py line 36). -/
def init_call_args : ℕ := 2

/-- The attributes assigned on `self` by `Samples.__init__` before the call
to `initialise_samples` runs (samples.py lines 24-34). -/
def samples_init_attrs : List String :=
  ["N", "D", "x_new", "r", "r_new", "grad_x", "ess", "logw", "logw_new"]

/-- Attribute names the body of `initialise_samples` reads from `self` that
no earlier code has assigned (samples.py lines 42-43). -/
def initialise_samples_missing_attrs : List String :=
  ["target", "sample_proposal"]

/-- The local names in scope in the body of `initialise_samples`; the bare
name `phi_new` read on samples.py line 42 is not among them. -/
def initialise_samples_locals : List String := ["self", "sample_proposal"]

/-- Module-level globals of `samples.py`: the two imports and the class
itself; `phi_new` is not among them either. -/
def samples_module_globals : List String := ["np", "logsumexp", "Samples"]

/-- Constructing a `Samples` object with `given` positional arguments: the
argument binding of `__init__`, the field assignments (pure), then the
binding of the internal `initialise_samples` call. -/
def Samples_construct (given : ℕ) : Except PyError Unit := do
  let _ ← bindArgs Samples_init_params given
  bindArgs initialise_samples_params init_call_args

/-- `SMCSampler.__init__` passes eight positional arguments to `Samples`
(smc_sampler.py line 67). -/
def SMCSampler_args_to_Samples : ℕ := 8

/-- The `Samples(...)` construction step that `SMCSampler.__init__` reaches
unconditionally on smc_sampler.py line 67. -/
def SMCSampler_construct_samples : Except PyError Unit :=
  Samples_construct SMCSampler_args_to_Samples

end PyModel

/-- `NUTSProposal_with_AccRej_tempering.rvs` of `nuts_acc_rej_temp.py`.
The per-particle NUTS move `generate_nuts_samples` (inherited from the base
class) and the Metropolis test `hmc_accept_reject` (from `proposal/utils`,
closed over `self.target.logpdf`) enter as parameters; the test for particle
`i` also receives the uniform draw `u i` that the shared generator supplies
to its call.  The loop first fills `x_prime, r_prime` with the NUTS
candidates, then reverts the rejected particles to the conditional state. -/
def accRejTempering_rvs {n : ℕ} {X R G : Type}
    (generate_nuts_samples : X → R → G → ℝ → X × R)
    (hmc_acc_rej : X → X → R → R → ℝ → Bool)
    (u : Fin n → ℝ) (x_cond : Fin n → X) (r_cond : Fin n → R)
    (grad_x : Fin n → G) (phi : ℝ) : (Fin n → X) × (Fin n → R) :=
  let prime := fun i => generate_nuts_samples (x_cond i) (r_cond i) (grad_x i) phi
  let accepted := fun i =>
    hmc_acc_rej (x_cond i) (prime i).1 (r_cond i) (prime i).2 (u i)
  (fun i => if accepted i then (prime i).1 else x_cond i,
   fun i => if accepted i then (prime i).2 else r_cond i)

namespace SMCSampler

/-- The L-kernel selector string that switches `SMCSampler` to the
asymptotic strategy (`lkernel == "asymptoticLKernel"`). -/
def asymptoticLKernel : String := "asymptoticLKernel"

/-- The L-kernel selector string of the forward-proposal strategy, used here
as a representative non-asymptotic selector. -/
def forwardsLKernel : String := "forwardsLKernel"

/-- The interface the sampler needs from the model adapter: a per-position
log-density parameterised by the annealing parameter `phi` (numpy's default
argument `phi=1.0` is made explicit at the call sites), plus the optional
`constrain` reparameterisation consulted by `estimate`. -/
structure Target (D : ℕ) where
  logpdf : (Fin D → ℝ) → ℝ → ℝ
  constrain : Option ((Fin D → ℝ) → (Fin D → ℝ))

/-- `SMCSampler.estimate` of `smc_sampler.py`: importance-sampling estimates
of the mean (`wn.T @ _x`) and variance (`wn.T @ np.square(_x - mean)`) of
the target, after applying `constrain` when the model declares a constrained
parameterisation; `x` and `wn` are aligned lists of positions and
normalised weights. -/
noncomputable def estimate {D : ℕ} (target : Target D)
    (x : List (Fin D → ℝ)) (wn : List ℝ) : (Fin D → ℝ) × (Fin D → ℝ) :=
  let cx := match target.constrain with
    | some f => x.map f
    | none => x
  let mean := fun d => ((cx.zip wn).map (fun p => p.2 * p.1 d)).sum
  (mean, fun d => ((cx.zip wn).map (fun p => p.2 * (p.1 d - mean d) ^ 2)).sum)

/-- The outcome of the main `K`-iteration loop of `SMCSampler.sample`
(smc_sampler.py lines 160-199): the loop fills the mean and variance
estimate arrays and the `x_saved`/`logw_saved`/`phi` histories.  The
per-iteration methods it calls (`propose_samples`, `reweight`, ...) live in
a samples module that only the orchestration imports, so the loop is
abstracted into its recorded outcome. -/
structure LoopOutcome (D K : ℕ) where
  mean_estimate : Fin (K + 1) → Fin D → ℝ
  variance_estimate : Fin (K + 1) → Fin D → ℝ
  x_saved : Fin (K + 1) → List (Fin D → ℝ)
  logw_saved : Fin (K + 1) → List LogWeight
  phi : Fin (K + 1) → ℝ

/-- `SMCSampler.estimate_from_tempered` of `smc_sampler.py`: for every
recorded iteration `k`, renormalise the saved log-weights, draw `N` indices
via `self.rng.choice(z, self.N, p=wn)` (the generator is modelled as a
stateless oracle `choice` applied to the state counter `rng0 + k`, one call
per loop iteration), take the saved positions at those indices, compute the
importance log-weights `target.logpdf(x) - target.logpdf(x, phi=phi[k])`,
renormalise them, and recompute the mean and variance estimates for `k`. -/
noncomputable def estimate_from_tempered (K N : ℕ) {D : ℕ} (target : Target D)
    (choice : ℕ → List ℝ → ℕ → List ℕ) (rng0 : ℕ)
    (x_saved : Fin (K + 1) → List (Fin D → ℝ))
    (logw_saved : Fin (K + 1) → List LogWeight)
    (phi : Fin (K + 1) → ℝ) : Fin (K + 1) → (Fin D → ℝ) × (Fin D → ℝ) :=
  fun k =>
    let wn := (Samples.normalise_weights (logw_saved k)).1
    let z_new := choice (rng0 + (k : ℕ)) wn N
    let x := z_new.map (fun j => (x_saved k).getD j (fun _ => 0))
    let ess_logw := x.map
      (fun xi => some (target.logpdf xi 1 - target.logpdf xi (phi k)))
    estimate target x (Samples.normalise_weights ess_logw).1

/-- The estimates `SMCSampler.sample` leaves in `self.mean_estimate` and
`self.variance_estimate` when it returns (smc_sampler.py lines 193-204):
the loop's values, overwritten by `estimate_from_tempered` exactly when the
sampler was constructed with `lkernel == "asymptoticLKernel"`. -/
noncomputable def sample_estimates (K N : ℕ) {D : ℕ} (target : Target D)
    (lkernel : String) (choice : ℕ → List ℝ → ℕ → List ℕ) (rng0 : ℕ)
    (loop : LoopOutcome D K) : Fin (K + 1) → (Fin D → ℝ) × (Fin D → ℝ) :=
  if lkernel = asymptoticLKernel then
    estimate_from_tempered K N target choice rng0 loop.x_saved
      loop.logw_saved loop.phi
  else
    fun k => (loop.mean_estimate k, loop.variance_estimate k)

/-- The diagnostic arrays of length `K + 1` that `SMCSampler.__init__`
allocates and `update_sampler` writes at index `k`. -/
structure Diagnostics (K D : ℕ) where
  log_likelihood : Fin (K + 1) → ℝ
  ess_trace : Fin (K + 1) → ℝ
  acceptance_rate : Fin (K + 1) → ℝ
  mean_estimate : Fin (K + 1) → Fin D → ℝ
  variance_estimate : Fin (K + 1) → Fin D → ℝ

/-- The fields of `self.samples` that `SMCSampler.update_sampler` reads. -/
structure SamplesSnapshot (N D : ℕ) where
  x : Fin N → Fin D → ℝ
  x_new : Fin N → Fin D → ℝ
  log_likelihood : ℝ
  ess : ℝ

open Classical in
/-- The acceptance-rate value `update_sampler` stores (smc_sampler.py line
115): `np.sum(np.all(self.samples.x_new != self.samples.x, axis=1)) /
self.N` — the number of particles whose position differs from its previous
position in EVERY coordinate (`np.all` along `axis=1`), divided by `N`. -/
noncomputable def acceptance_rate_value (N D : ℕ)
    (x x_new : Fin N → Fin D → ℝ) : ℝ :=
  ((Finset.univ.filter
      fun i : Fin N => ∀ d : Fin D, x_new i d ≠ x i d).card : ℝ) / (N : ℝ)

open Classical in
/-- `SMCSampler.update_sampler` of `smc_sampler.py`: writes the diagnostics
of iteration `k`. -/
noncomputable def update_sampler {K N D : ℕ} (diag : Diagnostics K D)
    (k : Fin (K + 1)) (mean_estimate variance_estimate : Fin D → ℝ)
    (s : SamplesSnapshot N D) : Diagnostics K D where
  log_likelihood := Function.update diag.log_likelihood k s.log_likelihood
  ess_trace := Function.update diag.ess_trace k s.ess
  acceptance_rate := Function.update diag.acceptance_rate k
    (acceptance_rate_value N D s.x s.x_new)
  mean_estimate := Function.update diag.mean_estimate k mean_estimate
  variance_estimate := Function.update diag.variance_estimate k variance_estimate

/-- A particle position that does not move at all. -/
def xStay : Fin 1 → Fin 2 → ℝ := fun _ _ => 0

/-- A particle position that moves in the second coordinate only: the
particle's position changed, but not in every coordinate. -/
def xHalfMove : Fin 1 → Fin 2 → ℝ := fun _ d => if d = 0 then 0 else 1

/-- An all-zero diagnostics record for one iteration in two dimensions. -/
def diagZero : Diagnostics 0 2 :=
  Diagnostics.mk (fun _ => 0) (fun _ => 0) (fun _ => 0) (fun _ _ => 0)
    (fun _ _ => 0)

end SMCSampler

namespace Samples

lemma sumExp_nonneg (l : List ℝ) : 0 ≤ sumExp l := by
  apply List.sum_nonneg
  intro a ha
  simp only [List.mem_map] at ha
  obtain ⟨b, _, rfl⟩ := ha
  exact (Real.exp_pos b).le

lemma sumExp_pos (l : List ℝ) (h : l ≠ []) : 0 < sumExp l := by
  cases l with
  | nil => exact absurd rfl h
  | cons a t =>
      have ht : 0 ≤ sumExp t := sumExp_nonneg t
      have : sumExp (a :: t) = Real.exp a + sumExp t := by
        simp [sumExp]
      rw [this]
      linarith [Real.exp_pos a]

lemma sum_map_wnEntry (logw : List LogWeight) (c : ℝ) :
    (logw.map (wnEntry c)).sum = sumExp (finiteEntries logw) / Real.exp c := by
  induction logw with
  | nil => simp [sumExp, finiteEntries]
  | cons a t ih =>
      cases a with
      | none =>
          simp only [List.map_cons, List.sum_cons, wnEntry]
          rw [ih]
          simp [finiteEntries]
      | some v =>
          simp only [List.map_cons, List.sum_cons, wnEntry]
          rw [ih]
          have hfe : finiteEntries (some v :: t) = v :: finiteEntries t := by
            simp [finiteEntries]
          rw [hfe]
          have hse : sumExp (v :: finiteEntries t)
              = Real.exp v + sumExp (finiteEntries t) := by
            simp [sumExp]
          rw [hse, Real.exp_sub, div_add_div_same]

lemma normalise_weights_length (logw : List LogWeight) :
    (normalise_weights logw).1.length = logw.length := by
  simp [normalise_weights]

/-- Claim C1: for every log-weight vector with at least one finite entry,
`normalise_weights` sets `log_likelihood` to the log-sum-exp of the finite
log-weights, sets the normalised weight at a finite position `i` to
`exp(logw_i - log_likelihood)` and at a `-inf` position to exactly `0`, and
the resulting normalised weights are non-negative and sum to `1`. -/
theorem C1_normalise_weights_spec (logw : List LogWeight)
    (h : finiteEntries logw ≠ []) :
    (normalise_weights logw).2 = logsumexp (finiteEntries logw) ∧
    (∀ w ∈ (normalise_weights logw).1, 0 ≤ w) ∧
    (normalise_weights logw).1.sum = 1 ∧
    (∀ i (hi : i < logw.length), logw.get ⟨i, hi⟩ = none →
      (normalise_weights logw).1.get
        ⟨i, by simpa [normalise_weights] using hi⟩ = 0) ∧
    (∀ i (hi : i < logw.length) v, logw.get ⟨i, hi⟩ = some v →
      (normalise_weights logw).1.get
        ⟨i, by simpa [normalise_weights] using hi⟩
        = Real.exp (v - (normalise_weights logw).2)) := by
  have hS : 0 < sumExp (finiteEntries logw) := sumExp_pos _ h
  refine ⟨rfl, ?_, ?_, ?_, ?_⟩
  · intro w hw
    simp only [normalise_weights, List.mem_map] at hw
    obtain ⟨a, _, rfl⟩ := hw
    cases a with
    | none => simp [wnEntry]
    | some v =>
        simp only [wnEntry]
        exact (Real.exp_pos _).le
  · have := sum_map_wnEntry logw (logsumexp (finiteEntries logw))
    simp only [normalise_weights]
    rw [this, logsumexp, Real.exp_log hS, div_self (ne_of_gt hS)]
  · intro i hi hnone
    simp only [normalise_weights, List.get_map, hnone, wnEntry]
  · intro i hi v hv
    simp only [normalise_weights, List.get_map, hv, wnEntry]

/-- Witness for C1: the concrete log-weight vector `[-inf, 0]` has a finite
entry, and the theorem applies to it. -/
theorem C1_normalise_weights_spec_witness :
    finiteEntries [none, some (0 : ℝ)] ≠ [] ∧
    ((normalise_weights [none, some (0 : ℝ)]).2
        = logsumexp (finiteEntries [none, some (0 : ℝ)]) ∧
     (∀ w ∈ (normalise_weights [none, some (0 : ℝ)]).1, 0 ≤ w) ∧
     (normalise_weights [none, some (0 : ℝ)]).1.sum = 1 ∧
     (∀ i (hi : i < (([none, some (0 : ℝ)] : List LogWeight)).length),
        ([none, some (0 : ℝ)] : List LogWeight).get ⟨i, hi⟩ = none →
        (normalise_weights [none, some (0 : ℝ)]).1.get
          ⟨i, by simpa [normalise_weights] using hi⟩ = 0) ∧
     (∀ i (hi : i < (([none, some (0 : ℝ)] : List LogWeight)).length) v,
        ([none, some (0 : ℝ)] : List LogWeight).get ⟨i, hi⟩ = some v →
        (normalise_weights [none, some (0 : ℝ)]).1.get
          ⟨i, by simpa [normalise_weights] using hi⟩
          = Real.exp (v - (normalise_weights [none, some (0 : ℝ)]).2))) :=
  ⟨by simp [finiteEntries],
   C1_normalise_weights_spec [none, some (0 : ℝ)] (by simp [finiteEntries])⟩

lemma finiteEntries_shiftLogw (c : ℝ) (logw : List LogWeight) :
    finiteEntries (shiftLogw c logw) = (finiteEntries logw).map (fun v => v + c) := by
  induction logw with
  | nil => simp [finiteEntries, shiftLogw]
  | cons a t ih =>
      cases a with
      | none => simpa [finiteEntries, shiftLogw] using ih
      | some v => simpa [finiteEntries, shiftLogw] using ih

lemma sumExp_map_add (c : ℝ) (l : List ℝ) :
    sumExp (l.map (fun v => v + c)) = sumExp l * Real.exp c := by
  induction l with
  | nil => simp [sumExp]
  | cons a t ih =>
      simp only [List.map_cons, sumExp, List.sum_cons] at ih ⊢
      rw [ih, Real.exp_add, add_mul]

lemma logsumexp_shift (c : ℝ) (l : List ℝ) (h : l ≠ []) :
    logsumexp (l.map (fun v => v + c)) = logsumexp l + c := by
  have hS : 0 < sumExp l := sumExp_pos l h
  rw [logsumexp, sumExp_map_add, Real.log_mul (ne_of_gt hS) (Real.exp_ne_zero c),
    Real.log_exp, logsumexp]

lemma normalise_weights_shiftLogw (c : ℝ) (logw : List LogWeight)
    (h : finiteEntries logw ≠ []) :
    (normalise_weights (shiftLogw c logw)).1 = (normalise_weights logw).1 := by
  have hZ : logsumexp (finiteEntries (shiftLogw c logw))
      = logsumexp (finiteEntries logw) + c := by
    rw [finiteEntries_shiftLogw, logsumexp_shift c _ h]
  simp only [shiftLogw] at hZ
  simp only [normalise_weights, shiftLogw, List.map_map, hZ]
  apply List.map_congr_left
  intro a _
  cases a with
  | none => simp [wnEntry]
  | some v =>
      show Real.exp (v + c - (logsumexp (finiteEntries logw) + c))
          = Real.exp (v - logsumexp (finiteEntries logw))
      congr 1
      ring

/-- Claim C4: the effective sample size computed by `normalise_weights`
followed by `calculate_ess` is unchanged when the same additive constant `c`
is added to every pre-normalisation log-weight, for every log-weight vector
with at least one finite entry. -/
theorem C4_ess_shift_invariant (c : ℝ) (logw : List LogWeight)
    (h : finiteEntries logw ≠ []) :
    calculate_ess (normalise_weights (shiftLogw c logw)).1
      = calculate_ess (normalise_weights logw).1 := by
  rw [normalise_weights_shiftLogw c logw h]

/-- Witness for C4: the theorem applied at the vector `[0, -inf]` and the
constant `5`. -/
theorem C4_ess_shift_invariant_witness :
    finiteEntries [some (0 : ℝ), none] ≠ [] ∧
    calculate_ess (normalise_weights (shiftLogw 5 [some (0 : ℝ), none])).1
      = calculate_ess (normalise_weights [some (0 : ℝ), none]).1 :=
  ⟨by simp [finiteEntries],
   C4_ess_shift_invariant 5 [some (0 : ℝ), none] (by simp [finiteEntries])⟩

/-- Claim C9 concerns the vector whose entries are all `-inf`.  The source
does not raise any error there: `normalise_weights` leaves every normalised
weight at the `0` written by `np.zeros_like` and stores
`log_likelihood = logsumexp([])` (`-inf` in scipy), and `calculate_ess` then
divides by zero.  This theorem evaluates the model at that failing input:
the computation returns an all-zero weight vector instead of surfacing a
`DegenerateWeights` error. -/
theorem C9_all_neginf_returns_zero_weights :
    (normalise_weights [none, none]).1 = [0, 0] ∧
    calculate_ess (normalise_weights [none, none]).1 = 1 / 0 := by
  constructor
  · simp [normalise_weights, wnEntry]
  · simp [normalise_weights, wnEntry, calculate_ess]

lemma list_sum_nonneg_eq_zero (l : List ℝ) :
    (∀ x ∈ l, 0 ≤ x) → (l.sum = 0 ↔ ∀ x ∈ l, x = 0) := by
  induction l with
  | nil => intro _; simp
  | cons a t ih =>
      intro h
      have ha := h a (List.mem_cons_self a t)
      have ht : ∀ x ∈ t, 0 ≤ x := fun x hx => h x (List.mem_cons_of_mem a hx)
      have hts := List.sum_nonneg ht
      rw [List.sum_cons]
      constructor
      · intro h0
        intro x hx
        rcases List.mem_cons.mp hx with hxa | hxt
        · rw [hxa]; linarith
        · have ht0 : t.sum = 0 := by linarith
          exact ((ih ht).mp ht0) x hxt
      · intro hall
        have ha0 := hall a (List.mem_cons_self a t)
        have ht0 : t.sum = 0 :=
          (ih ht).mpr (fun x hx => hall x (List.mem_cons_of_mem a hx))
        rw [ha0, ht0, add_zero]

lemma sq_dev_sum (l : List ℝ) (a : ℝ) :
    (l.map (fun w => (w - a) ^ 2)).sum
      = (l.map (fun w => w ^ 2)).sum - 2 * a * l.sum + l.length * a ^ 2 := by
  induction l with
  | nil => simp
  | cons x t ih =>
      simp only [List.map_cons, List.sum_cons, List.length_cons, ih]
      push_cast
      ring

lemma sum_map_const_real (l : List ℝ) (b : ℝ) :
    (l.map (fun _ => b)).sum = l.length * b := by
  induction l with
  | nil => simp
  | cons x t ih =>
      simp only [List.map_cons, List.sum_cons, List.length_cons, ih]
      push_cast
      ring

lemma sum_map_id_sub_sq (l : List ℝ) :
    (l.map (fun w => w - w ^ 2)).sum = l.sum - (l.map (fun w => w ^ 2)).sum := by
  induction l with
  | nil => simp
  | cons x t ih =>
      simp only [List.map_cons, List.sum_cons, ih]
      ring

lemma binary_sum_decomp (l : List ℝ) :
    (∀ w ∈ l, 0 ≤ w) → (∀ w ∈ l, w = 0 ∨ w = 1) → l.sum = 1 →
    ∃ pre post, l = pre ++ 1 :: post ∧
      (∀ w ∈ pre, w = 0) ∧ (∀ w ∈ post, w = 0) := by
  induction l with
  | nil => intro _ _ hsum; norm_num at hsum
  | cons a t ih =>
      intro hpos h01 hsum
      rcases h01 a (List.mem_cons_self a t) with ha0 | ha1
      · have hts : t.sum = 1 := by
          rw [List.sum_cons, ha0, zero_add] at hsum; exact hsum
        obtain ⟨pre, post, hdec, hpre, hpost⟩ :=
          ih (fun w hw => hpos w (List.mem_cons_of_mem a hw))
             (fun w hw => h01 w (List.mem_cons_of_mem a hw)) hts
        refine ⟨a :: pre, post, ?_, ?_, hpost⟩
        · rw [List.cons_append, hdec]
        · intro w hw
          rcases List.mem_cons.mp hw with hwa | hwp
          · rw [hwa]; exact ha0
          · exact hpre w hwp
      · have hts : t.sum = 0 := by
          rw [List.sum_cons, ha1] at hsum; linarith
        have hall : ∀ w ∈ t, w = 0 :=
          (list_sum_nonneg_eq_zero t
            (fun w hw => hpos w (List.mem_cons_of_mem a hw))).mp hts
        refine ⟨[], t, ?_, ?_, hall⟩
        · rw [ha1]; rfl
        · intro w hw; simp at hw

lemma sq_sum_lower (wn : List ℝ) (hpos : ∀ w ∈ wn, 0 ≤ w) (hsum : wn.sum = 1) :
    1 / (wn.length : ℝ) ≤ (wn.map (fun w => w ^ 2)).sum ∧
    (wn.map (fun w => (w - 1 / (wn.length : ℝ)) ^ 2)).sum
      = (wn.map (fun w => w ^ 2)).sum - 1 / (wn.length : ℝ) := by
  have hn : wn ≠ [] := by
    intro h0; rw [h0] at hsum; norm_num at hsum
  have hn0 : 0 < wn.length := List.length_pos.mpr hn
  have hnR : 0 < (wn.length : ℝ) := by exact_mod_cast hn0
  have hdev : (wn.map (fun w => (w - 1 / (wn.length : ℝ)) ^ 2)).sum
      = (wn.map (fun w => w ^ 2)).sum - 1 / (wn.length : ℝ) := by
    rw [sq_dev_sum, hsum]
    field_simp
    ring
  have hdev_nonneg :
      0 ≤ (wn.map (fun w => (w - 1 / (wn.length : ℝ)) ^ 2)).sum := by
    apply List.sum_nonneg
    intro x hx
    simp only [List.mem_map] at hx
    obtain ⟨w, _, rfl⟩ := hx
    exact sq_nonneg _
  exact ⟨by linarith, hdev⟩

lemma sq_sum_upper (wn : List ℝ) (hpos : ∀ w ∈ wn, 0 ≤ w) (hsum : wn.sum = 1) :
    (wn.map (fun w => w ^ 2)).sum ≤ 1 := by
  have hwle1 : ∀ w ∈ wn, w ≤ 1 := by
    intro w hw
    have := List.single_le_sum hpos w hw
    linarith
  have hle : (wn.map (fun w => w ^ 2)).sum ≤ (wn.map (fun w => w)).sum := by
    apply List.sum_le_sum
    intro w hw
    have h0 := hpos w hw
    have h1 := hwle1 w hw
    nlinarith
  have : (wn.map (fun w => w)).sum = 1 := by simpa using hsum
  linarith

lemma sq_sum_pos (wn : List ℝ) (hpos : ∀ w ∈ wn, 0 ≤ w) (hsum : wn.sum = 1) :
    0 < (wn.map (fun w => w ^ 2)).sum := by
  have hn : wn ≠ [] := by
    intro h0; rw [h0] at hsum; norm_num at hsum
  have hn0 : 0 < wn.length := List.length_pos.mpr hn
  have hnR : 0 < (wn.length : ℝ) := by exact_mod_cast hn0
  have h := (sq_sum_lower wn hpos hsum).1
  have : 0 < 1 / (wn.length : ℝ) := by positivity
  linarith

/-- Claim C5: for every normalised weight vector (non-negative entries summing
to `1` over `N = wn.length` particles), `calculate_ess` returns `1` divided by
the sum of squared weights; the value lies in `[1, N]`; it equals `N` iff the
weights are uniform (`1/N` each), and equals `1` iff all weight mass sits on a
single particle. -/
theorem C5_calculate_ess_spec (wn : List ℝ)
    (hpos : ∀ w ∈ wn, 0 ≤ w) (hsum : wn.sum = 1) :
    calculate_ess wn = 1 / (wn.map (fun w => w ^ 2)).sum ∧
    1 ≤ calculate_ess wn ∧
    calculate_ess wn ≤ (wn.length : ℝ) ∧
    (calculate_ess wn = (wn.length : ℝ) ↔
      ∀ w ∈ wn, w = 1 / (wn.length : ℝ)) ∧
    (calculate_ess wn = 1 ↔
      ∃ pre post, wn = pre ++ 1 :: post ∧
        (∀ w ∈ pre, w = 0) ∧ (∀ w ∈ post, w = 0)) := by
  have hn : wn ≠ [] := by
    intro h0; rw [h0] at hsum; norm_num at hsum
  have hn0 : 0 < wn.length := List.length_pos.mpr hn
  have hnR : 0 < (wn.length : ℝ) := by exact_mod_cast hn0
  have hQpos := sq_sum_pos wn hpos hsum
  have hQhigh := sq_sum_upper wn hpos hsum
  obtain ⟨hQlow, hdev⟩ := sq_sum_lower wn hpos hsum
  have hess : calculate_ess wn = 1 / (wn.map (fun w => w ^ 2)).sum := rfl
  refine ⟨rfl, ?_, ?_, ?_, ?_⟩
  · rw [hess, le_div_iff hQpos, one_mul]
    exact hQhigh
  · rw [hess, div_le_iff hQpos]
    have h2 : (wn.length : ℝ) * (1 / (wn.length : ℝ)) = 1 := by
      field_simp
    have h3 := mul_le_mul_of_nonneg_left hQlow hnR.le
    linarith
  · rw [hess]
    constructor
    · intro he
      have h1 : (1 / (wn.map (fun w => w ^ 2)).sum) * (wn.map (fun w => w ^ 2)).sum
          = (wn.length : ℝ) * (wn.map (fun w => w ^ 2)).sum := by rw [he]
      rw [one_div_mul_cancel (ne_of_gt hQpos)] at h1
      have hQn : (wn.map (fun w => w ^ 2)).sum = 1 / (wn.length : ℝ) := by
        rw [eq_div_iff (ne_of_gt hnR)]
        rw [mul_comm] at h1
        linarith
      have hzero : (wn.map (fun w => (w - 1 / (wn.length : ℝ)) ^ 2)).sum = 0 := by
        rw [hdev, hQn]; ring
      have hall := (list_sum_nonneg_eq_zero _
        (by
          intro x hx
          simp only [List.mem_map] at hx
          obtain ⟨w, _, rfl⟩ := hx
          exact sq_nonneg _)).mp hzero
      intro w hw
      have hsq := hall _ (List.mem_map_of_mem _ hw)
      have hw0 : w - 1 / (wn.length : ℝ) = 0 :=
        (pow_eq_zero_iff two_ne_zero).mp hsq
      linarith
    · intro hu
      have hQn : (wn.map (fun w => w ^ 2)).sum = 1 / (wn.length : ℝ) := by
        have hmap : wn.map (fun w => w ^ 2)
            = wn.map (fun _ => (1 / (wn.length : ℝ)) ^ 2) := by
          apply List.map_congr_left
          intro w hw
          rw [hu w hw]
        rw [hmap, sum_map_const_real]
        field_simp
        ring
      rw [hQn, one_div_one_div]
  · rw [hess]
    have hsub : (wn.map (fun w => w - w ^ 2)).sum
        = 1 - (wn.map (fun w => w ^ 2)).sum := by
      rw [sum_map_id_sub_sq, hsum]
    have hwle1 : ∀ w ∈ wn, w ≤ 1 := by
      intro w hw
      have := List.single_le_sum hpos w hw
      linarith
    constructor
    · intro he
      have h1 : (1 / (wn.map (fun w => w ^ 2)).sum) * (wn.map (fun w => w ^ 2)).sum
          = 1 * (wn.map (fun w => w ^ 2)).sum := by rw [he]
      rw [one_div_mul_cancel (ne_of_gt hQpos), one_mul] at h1
      have hzero : (wn.map (fun w => w - w ^ 2)).sum = 0 := by
        rw [hsub, ← h1]; ring
      have hterms := (list_sum_nonneg_eq_zero _
        (by
          intro x hx
          simp only [List.mem_map] at hx
          obtain ⟨w, hw, rfl⟩ := hx
          have h0 := hpos w hw
          have hle := hwle1 w hw
          nlinarith)).mp hzero
      have h01 : ∀ w ∈ wn, w = 0 ∨ w = 1 := by
        intro w hw
        have hterm := hterms _ (List.mem_map_of_mem _ hw)
        have hmul : w * (1 - w) = 0 := by nlinarith
        rcases mul_eq_zero.mp hmul with h0 | h1
        · left; exact h0
        · right; linarith
      exact binary_sum_decomp wn hpos h01 hsum
    · rintro ⟨pre, post, hdec, hpre, hpost⟩
      have hQ1 : (wn.map (fun w => w ^ 2)).sum = 1 := by
        rw [hdec]
        simp only [List.map_append, List.map_cons, List.sum_append, List.sum_cons]
        have hp : (pre.map (fun w => w ^ 2)).sum = 0 := by
          apply List.sum_eq_zero
          intro x hx
          simp only [List.mem_map] at hx
          obtain ⟨w, hw, rfl⟩ := hx
          rw [hpre w hw]
          norm_num
        have hq : (post.map (fun w => w ^ 2)).sum = 0 := by
          apply List.sum_eq_zero
          intro x hx
          simp only [List.mem_map] at hx
          obtain ⟨w, hw, rfl⟩ := hx
          rw [hpost w hw]
          norm_num
        rw [hp, hq]
        norm_num
      rw [hQ1]
      norm_num

/-- Witness for C5: the theorem applied at the uniform two-particle weight
vector `[1/2, 1/2]`. -/
theorem C5_calculate_ess_spec_witness :
    (∀ w ∈ [(1 : ℝ)/2, 1/2], 0 ≤ w) ∧ ([(1 : ℝ)/2, 1/2].sum = 1) ∧
    (calculate_ess [(1 : ℝ)/2, 1/2]
        = 1 / (([(1 : ℝ)/2, 1/2]).map (fun w => w ^ 2)).sum ∧
     1 ≤ calculate_ess [(1 : ℝ)/2, 1/2] ∧
     calculate_ess [(1 : ℝ)/2, 1/2] ≤ (([(1 : ℝ)/2, 1/2]).length : ℝ) ∧
     (calculate_ess [(1 : ℝ)/2, 1/2] = (([(1 : ℝ)/2, 1/2]).length : ℝ) ↔
       ∀ w ∈ [(1 : ℝ)/2, 1/2], w = 1 / (([(1 : ℝ)/2, 1/2]).length : ℝ)) ∧
     (calculate_ess [(1 : ℝ)/2, 1/2] = 1 ↔
       ∃ pre post, [(1 : ℝ)/2, 1/2] = pre ++ 1 :: post ∧
         (∀ w ∈ pre, w = 0) ∧ (∀ w ∈ post, w = 0))) :=
  ⟨by norm_num, by norm_num,
   C5_calculate_ess_spec [(1 : ℝ)/2, 1/2] (by norm_num) (by norm_num)⟩

lemma finiteEntries_replicate (N : ℕ) (c : ℝ) :
    finiteEntries (List.replicate N (some c)) = List.replicate N c := by
  induction N with
  | zero => simp [finiteEntries]
  | succ n ih =>
      simp only [List.replicate_succ, finiteEntries, List.filterMap_cons] at ih ⊢
      simp [ih]

lemma reset_weights_ess (N : ℕ) (c : ℝ) (hN : 0 < N) :
    calculate_ess (normalise_weights (List.replicate N (some c))).1 = N := by
  have hNR : (0 : ℝ) < (N : ℝ) := by exact_mod_cast hN
  have hprod : (0 : ℝ) < (N : ℝ) * Real.exp c := by positivity
  have hse : sumExp (List.replicate N c) = (N : ℝ) * Real.exp c := by
    simp [sumExp, List.map_replicate, List.sum_replicate, nsmul_eq_mul]
  have hZ : logsumexp (finiteEntries (List.replicate N (some c)))
      = Real.log ((N : ℝ) * Real.exp c) := by
    rw [finiteEntries_replicate, logsumexp, hse]
  have hone : Real.exp (c - Real.log ((N : ℝ) * Real.exp c)) = 1 / (N : ℝ) := by
    rw [Real.exp_sub, Real.exp_log hprod]
    rw [div_eq_div_iff hprod.ne' hNR.ne']
    ring
  have hwn : (normalise_weights (List.replicate N (some c))).1
      = List.replicate N (1 / (N : ℝ)) := by
    simp only [normalise_weights, hZ, List.map_replicate]
    have hentry : wnEntry (Real.log ((N : ℝ) * Real.exp c)) (some c)
        = 1 / (N : ℝ) := by
      simp only [wnEntry]
      exact hone
    rw [hentry]
  rw [hwn, calculate_ess, List.map_replicate, List.sum_replicate, nsmul_eq_mul]
  rw [div_eq_iff (by positivity)]
  field_simp
  ring

/-- Claim C2: for every particle list `x`, weight vector `wn` and
`log_likelihood`, `resample` returns the positions of `x` at the indices the
shared generator draws via `rng.choice(i, N, p=wn)`, returns a log-weight
vector of length `N` in which every entry equals
`log_likelihood - log(N)`, and the effective sample size implied by these
reset log-weights equals `N`. -/
theorem C2_resample_spec {X : Type} (choice : ℕ → List ℝ → ℕ → List ℕ × ℕ)
    (d : X) (s : SamplesState X) (x : List X) (wn : List ℝ)
    (log_likelihood : ℝ) (hN : 0 < s.N) :
    (resample choice d s x wn log_likelihood).2.1
      = (choice s.rngState wn s.N).1.map (fun j => x.getD j d) ∧
    (∀ w ∈ (resample choice d s x wn log_likelihood).2.2,
      w = log_likelihood - Real.log s.N) ∧
    (resample choice d s x wn log_likelihood).2.2.length = s.N ∧
    calculate_ess (normalise_weights
        ((resample choice d s x wn log_likelihood).2.2.map some)).1
      = (s.N : ℝ) := by
  refine ⟨rfl, ?_, by simp [resample], ?_⟩
  · intro w hw
    exact List.eq_of_mem_replicate hw
  · show calculate_ess (normalise_weights
        ((List.replicate s.N (log_likelihood - Real.log s.N)).map some)).1
      = (s.N : ℝ)
    rw [List.map_replicate]
    exact reset_weights_ess s.N _ hN

/-- Witness for C2: the theorem applied to a concrete two-particle state. -/
theorem C2_resample_spec_witness :
    0 < (SamplesState.mk 2 [(3 : ℝ), 4] [some 0, some 0] [1/2, 1/2] 0 0).N ∧
    ((resample (fun _ _ _ => ([0, 0], 1)) (0 : ℝ)
        (SamplesState.mk 2 [(3 : ℝ), 4] [some 0, some 0] [1/2, 1/2] 0 0)
        [(3 : ℝ), 4] [1/2, 1/2] 7).2.1
      = ((fun (_ : ℕ) (_ : List ℝ) (_ : ℕ) => ([0, 0], 1))
          (SamplesState.mk 2 [(3 : ℝ), 4] [some 0, some 0] [1/2, 1/2] 0 0).rngState
          [1/2, 1/2]
          (SamplesState.mk 2 [(3 : ℝ), 4] [some 0, some 0] [1/2, 1/2] 0 0).N).1.map
          (fun j => ([(3 : ℝ), 4]).getD j 0) ∧
     (∀ w ∈ (resample (fun _ _ _ => ([0, 0], 1)) (0 : ℝ)
        (SamplesState.mk 2 [(3 : ℝ), 4] [some 0, some 0] [1/2, 1/2] 0 0)
        [(3 : ℝ), 4] [1/2, 1/2] 7).2.2,
      w = 7 - Real.log
        (SamplesState.mk 2 [(3 : ℝ), 4] [some 0, some 0] [1/2, 1/2] 0 0).N) ∧
     (resample (fun _ _ _ => ([0, 0], 1)) (0 : ℝ)
        (SamplesState.mk 2 [(3 : ℝ), 4] [some 0, some 0] [1/2, 1/2] 0 0)
        [(3 : ℝ), 4] [1/2, 1/2] 7).2.2.length
      = (SamplesState.mk 2 [(3 : ℝ), 4] [some 0, some 0] [1/2, 1/2] 0 0).N ∧
     calculate_ess (normalise_weights
        ((resample (fun _ _ _ => ([0, 0], 1)) (0 : ℝ)
          (SamplesState.mk 2 [(3 : ℝ), 4] [some 0, some 0] [1/2, 1/2] 0 0)
          [(3 : ℝ), 4] [1/2, 1/2] 7).2.2.map some)).1
      = ((SamplesState.mk 2 [(3 : ℝ), 4] [some 0, some 0] [1/2, 1/2] 0 0).N : ℝ)) :=
  ⟨by decide,
   C2_resample_spec (fun _ _ _ => ([0, 0], 1)) (0 : ℝ)
     (SamplesState.mk 2 [(3 : ℝ), 4] [some 0, some 0] [1/2, 1/2] 0 0)
     [(3 : ℝ), 4] [1/2, 1/2] 7 (by decide)⟩

/-- Claim C10: `resample` leaves the particle set's own stored state
unchanged: `self.x`, `self.logw`, `self.wn`, `self.log_likelihood` (and
`self.N`) are the same after the call as before; only the shared generator
is consumed. -/
theorem C10_resample_frame {X : Type} (choice : ℕ → List ℝ → ℕ → List ℕ × ℕ)
    (d : X) (s : SamplesState X) (x : List X) (wn : List ℝ)
    (log_likelihood : ℝ) :
    (resample choice d s x wn log_likelihood).1.x = s.x ∧
    (resample choice d s x wn log_likelihood).1.logw = s.logw ∧
    (resample choice d s x wn log_likelihood).1.wn = s.wn ∧
    (resample choice d s x wn log_likelihood).1.log_likelihood
      = s.log_likelihood ∧
    (resample choice d s x wn log_likelihood).1.N = s.N ∧
    (resample choice d s x wn log_likelihood).1.rngState
      = (choice s.rngState wn s.N).2 :=
  ⟨rfl, rfl, rfl, rfl, rfl, rfl⟩

end Samples

namespace PyModel

/-- Claim C3: for every number of constructor arguments, constructing a
`Samples` object raises `TypeError` before any sampling can occur — with the
documented four arguments the internal two-argument call to the
one-parameter `initialise_samples` fails to bind — and therefore the
`Samples(...)` step of `SMCSampler.__init__`, which passes eight arguments
to the four-parameter `__init__`, raises as well.  Moreover the names
`initialise_samples` references (`self.target`, `self.sample_proposal`, and
the bare `phi_new`) are defined neither among the assigned attributes nor in
the local or module scope. -/
theorem C3_construction_always_raises :
    (∀ given : ℕ, Samples_construct given = Except.error PyError.typeError) ∧
    SMCSampler_construct_samples = Except.error PyError.typeError ∧
    Samples_init_params = 4 ∧ SMCSampler_args_to_Samples = 8 ∧
    initialise_samples_params = 1 ∧ init_call_args = 2 ∧
    (∀ a ∈ initialise_samples_missing_attrs, a ∉ samples_init_attrs) ∧
    "phi_new" ∉ initialise_samples_locals ∧
    "phi_new" ∉ samples_module_globals := by
  refine ⟨?_, rfl, by decide, by decide, by decide, by decide,
    by decide, by decide, by decide⟩
  intro given
  by_cases h : given = 4
  · subst h; rfl
  · simp [Samples_construct, bindArgs, Samples_init_params, h,
      Bind.bind, Except.bind]

end PyModel

/-- Claim C6: in the accept-reject proposal's `rvs`, every particle whose
Metropolis test rejects keeps the input conditional state
(`x_prime[i] = x_cond[i]`, `r_prime[i] = r_cond[i]`), and every accepted
particle returns the NUTS-generated candidate. -/
theorem C6_acc_rej_rvs_spec {n : ℕ} {X R G : Type}
    (generate_nuts_samples : X → R → G → ℝ → X × R)
    (hmc_acc_rej : X → X → R → R → ℝ → Bool)
    (u : Fin n → ℝ) (x_cond : Fin n → X) (r_cond : Fin n → R)
    (grad_x : Fin n → G) (phi : ℝ) (i : Fin n) :
    (hmc_acc_rej (x_cond i)
        (generate_nuts_samples (x_cond i) (r_cond i) (grad_x i) phi).1
        (r_cond i)
        (generate_nuts_samples (x_cond i) (r_cond i) (grad_x i) phi).2
        (u i) = false →
      (accRejTempering_rvs generate_nuts_samples hmc_acc_rej u x_cond r_cond
          grad_x phi).1 i = x_cond i ∧
      (accRejTempering_rvs generate_nuts_samples hmc_acc_rej u x_cond r_cond
          grad_x phi).2 i = r_cond i) ∧
    (hmc_acc_rej (x_cond i)
        (generate_nuts_samples (x_cond i) (r_cond i) (grad_x i) phi).1
        (r_cond i)
        (generate_nuts_samples (x_cond i) (r_cond i) (grad_x i) phi).2
        (u i) = true →
      (accRejTempering_rvs generate_nuts_samples hmc_acc_rej u x_cond r_cond
          grad_x phi).1 i
        = (generate_nuts_samples (x_cond i) (r_cond i) (grad_x i) phi).1 ∧
      (accRejTempering_rvs generate_nuts_samples hmc_acc_rej u x_cond r_cond
          grad_x phi).2 i
        = (generate_nuts_samples (x_cond i) (r_cond i) (grad_x i) phi).2) := by
  constructor <;> intro h <;>
    exact ⟨by simp [accRejTempering_rvs, h], by simp [accRejTempering_rvs, h]⟩

/-- Witness for C6: a one-particle instance whose test always rejects; the
returned state is the conditional state. -/
theorem C6_acc_rej_rvs_spec_witness :
    (accRejTempering_rvs (n := 1)
        (fun (x r : ℝ) (_ : ℝ) (_ : ℝ) => (x + 1, r + 1))
        (fun (_ _ _ _ _ : ℝ) => false) (fun _ => 0) (fun _ => 5) (fun _ => 6)
        (fun _ => 0) 1).1 0 = 5 ∧
    (accRejTempering_rvs (n := 1)
        (fun (x r : ℝ) (_ : ℝ) (_ : ℝ) => (x + 1, r + 1))
        (fun (_ _ _ _ _ : ℝ) => false) (fun _ => 0) (fun _ => 5) (fun _ => 6)
        (fun _ => 0) 1).2 0 = 6 :=
  (C6_acc_rej_rvs_spec (n := 1)
    (fun (x r : ℝ) (_ : ℝ) (_ : ℝ) => (x + 1, r + 1))
    (fun (_ _ _ _ _ : ℝ) => false) (fun _ => 0) (fun _ => 5) (fun _ => 6)
    (fun _ => 0) 1 0).1 rfl

namespace SMCSampler

/-- Claim C7: with `lkernel = "asymptoticLKernel"` (and only then),
`sample()` overwrites the mean and variance estimate of every recorded
iteration `k` with the tempered re-estimation: the saved positions for `k`
resampled under the renormalised saved log-weights, importance log-weights
equal to the target log-density at `phi = 1` minus the target log-density at
`phi[k]` on the resampled positions, renormalised, and fed to `estimate`. -/
theorem C7_sample_tempered_reestimation (K N : ℕ) {D : ℕ} (target : Target D)
    (choice : ℕ → List ℝ → ℕ → List ℕ) (rng0 : ℕ) (loop : LoopOutcome D K) :
    (∀ k : Fin (K + 1),
      sample_estimates K N target asymptoticLKernel choice rng0 loop k
        = estimate target
            ((choice (rng0 + (k : ℕ))
                (Samples.normalise_weights (loop.logw_saved k)).1 N).map
              (fun j => (loop.x_saved k).getD j (fun _ => 0)))
            (Samples.normalise_weights
              (((choice (rng0 + (k : ℕ))
                  (Samples.normalise_weights (loop.logw_saved k)).1 N).map
                (fun j => (loop.x_saved k).getD j (fun _ => 0))).map
                (fun xi => some (target.logpdf xi 1
                  - target.logpdf xi (loop.phi k))))).1) ∧
    (∀ lk : String, lk ≠ asymptoticLKernel →
      sample_estimates K N target lk choice rng0 loop
        = fun k => (loop.mean_estimate k, loop.variance_estimate k)) := by
  constructor
  · intro k
    have h : sample_estimates K N target asymptoticLKernel choice rng0 loop
        = estimate_from_tempered K N target choice rng0 loop.x_saved
            loop.logw_saved loop.phi := by
      simp [sample_estimates]
    rw [h]
    rfl
  · intro lk hlk
    simp only [sample_estimates, if_neg hlk]

/-- Witness for C7: the theorem applied to a concrete one-dimensional,
one-iteration instance, with the non-asymptotic branch discharged at the
string `"forwardsLKernel"`. -/
theorem C7_sample_tempered_reestimation_witness :
    (forwardsLKernel ≠ asymptoticLKernel) ∧
    (∀ k : Fin 1,
      sample_estimates 0 1 (Target.mk (fun _ _ => 0) none) asymptoticLKernel
          (fun _ _ _ => [0]) 0
          (LoopOutcome.mk (fun _ _ => 0) (fun _ _ => 0)
            (fun _ => [fun _ => 0]) (fun _ => [some 0]) (fun _ => 0)) k
        = estimate (Target.mk (fun _ _ => 0) none)
            (((fun (_ : ℕ) (_ : List ℝ) (_ : ℕ) => [0]) (0 + (k : ℕ))
                (Samples.normalise_weights
                  ((LoopOutcome.mk (D := 1) (fun _ _ => 0) (fun _ _ => 0)
                    (fun _ => [fun _ => 0]) (fun _ => [some 0])
                    (fun _ => 0)).logw_saved k)).1 1).map
              (fun j => (((LoopOutcome.mk (D := 1) (fun _ _ => 0)
                  (fun _ _ => 0) (fun _ => [fun _ => 0]) (fun _ => [some 0])
                  (fun _ => 0)).x_saved k)).getD j (fun _ => 0)))
            (Samples.normalise_weights
              ((((fun (_ : ℕ) (_ : List ℝ) (_ : ℕ) => [0]) (0 + (k : ℕ))
                  (Samples.normalise_weights
                    ((LoopOutcome.mk (D := 1) (fun _ _ => 0) (fun _ _ => 0)
                      (fun _ => [fun _ => 0]) (fun _ => [some 0])
                      (fun _ => 0)).logw_saved k)).1 1).map
                (fun j => (((LoopOutcome.mk (D := 1) (fun _ _ => 0)
                    (fun _ _ => 0) (fun _ => [fun _ => 0]) (fun _ => [some 0])
                    (fun _ => 0)).x_saved k)).getD j (fun _ => 0))).map
                (fun xi => some ((Target.mk (D := 1) (fun _ _ => 0) none).logpdf xi 1
                  - (Target.mk (D := 1) (fun _ _ => 0) none).logpdf xi
                      ((LoopOutcome.mk (D := 1) (fun _ _ => 0) (fun _ _ => 0)
                        (fun _ => [fun _ => 0]) (fun _ => [some 0])
                        (fun _ => 0)).phi k))))).1) ∧
    (sample_estimates 0 1 (Target.mk (D := 1) (fun _ _ => 0) none)
        forwardsLKernel (fun _ _ _ => [0]) 0
        (LoopOutcome.mk (fun _ _ => 0) (fun _ _ => 0)
          (fun _ => [fun _ => 0]) (fun _ => [some 0]) (fun _ => 0))
      = fun k =>
          ((LoopOutcome.mk (D := 1) (fun _ _ => 0) (fun _ _ => 0)
              (fun _ => [fun _ => 0]) (fun _ => [some 0])
              (fun _ => 0)).mean_estimate k,
           (LoopOutcome.mk (D := 1) (fun _ _ => 0) (fun _ _ => 0)
              (fun _ => [fun _ => 0]) (fun _ => [some 0])
              (fun _ => 0)).variance_estimate k)) :=
  ⟨by decide,
   (C7_sample_tempered_reestimation 0 1 (Target.mk (fun _ _ => 0) none)
     (fun _ _ _ => [0]) 0 (LoopOutcome.mk (fun _ _ => 0) (fun _ _ => 0)
       (fun _ => [fun _ => 0]) (fun _ => [some 0]) (fun _ => 0))).1,
   (C7_sample_tempered_reestimation 0 1 (Target.mk (fun _ _ => 0) none)
     (fun _ _ _ => [0]) 0 (LoopOutcome.mk (fun _ _ => 0) (fun _ _ => 0)
       (fun _ => [fun _ => 0]) (fun _ => [some 0]) (fun _ => 0))).2
     forwardsLKernel (by decide)⟩

open Classical in
/-- Counterexample to claim C8 as stated: with one particle (`N = 1`) in two
dimensions whose position changes in exactly one coordinate, the recorded
acceptance rate is `0`, while the fraction of particles whose position
changed is `1`. -/
theorem C8_counterexample :
    (update_sampler diagZero 0 (fun _ => 0) (fun _ => 0)
        (SamplesSnapshot.mk xStay xHalfMove 0 0)).acceptance_rate 0
      ≠ ((Finset.univ.filter
          fun i : Fin 1 => xHalfMove i ≠ xStay i).card : ℝ) / ((1 : ℕ) : ℝ) := by
  have hlhs : (update_sampler diagZero 0 (fun _ => 0) (fun _ => 0)
      (SamplesSnapshot.mk xStay xHalfMove 0 0)).acceptance_rate 0
      = acceptance_rate_value 1 2 xStay xHalfMove := by
    simp [update_sampler]
  have hempty : (Finset.univ.filter
      fun i : Fin 1 => ∀ d : Fin 2, xHalfMove i d ≠ xStay i d) = ∅ := by
    apply Finset.filter_eq_empty_iff.mpr
    intro i _
    intro hall
    exact (hall 0) (by simp [xHalfMove, xStay])
  have hfull : (Finset.univ.filter
      fun i : Fin 1 => xHalfMove i ≠ xStay i) = Finset.univ := by
    apply Finset.filter_eq_self.mpr
    intro i _
    intro heq
    have h1 : xHalfMove i 1 = xStay i 1 := congrFun heq 1
    simp [xHalfMove, xStay] at h1
  rw [hlhs, acceptance_rate_value, hempty, hfull]
  norm_num

open Classical in
/-- Claim C8 (amended): for every iteration `k` recorded by
`update_sampler`, `acceptance_rate[k]` equals the number of particles `i`
for which every coordinate of `x_new[i]` differs from `x[i]`
(`np.all(x_new != x, axis=1)`), divided by `N` — not the number of
particles whose position changed in at least one coordinate. -/
theorem C8_acceptance_rate_amended {K N D : ℕ} (diag : Diagnostics K D)
    (k : Fin (K + 1)) (mean_estimate variance_estimate : Fin D → ℝ)
    (s : SamplesSnapshot N D) :
    (update_sampler diag k mean_estimate variance_estimate
        s).acceptance_rate k
      = ((Finset.univ.filter
          fun i : Fin N => ∀ d : Fin D, s.x_new i d ≠ s.x i d).card : ℝ)
        / (N : ℝ) := by
  show Function.update diag.acceptance_rate k
      (acceptance_rate_value N D s.x s.x_new) k = _
  rw [Function.update_same, acceptance_rate_value]

end SMCSampler
